import Mathlib

/-!
Shallow embedding of the cognitive-complexity cost engine: `calcElemCost`,
`NodeCost.calculate` and the per-construct cost handler classes,
`isBreakOrContinueToLabel`, `isForLikeStatement`, `isSyntaxList`,
`isTopLevel` and `calcFileCost`, together with proofs about the scoring
rules.

Syntax nodes are modelled as trees carrying a kind tag and the ordered list
of children, mirroring the concrete syntax tree that the TypeScript
compiler API hands to the engine (tokens included).  The parent links that
`isTopLevel` walks are modelled by passing the chain of ancestors
(innermost first) alongside each node; for a child this chain is its parent
consed onto the parent's own chain, which is exactly the information the
`parent` back-references carry on a tree.  Node labels and source positions
(`name`, `line`, `column` on the output records) are produced by the
external syntax-tree provider and carry no scoring content, so the embedded
result record keeps only the `score` and `inner` fields.
-/

/-- The node kinds the engine inspects: every construct kind tested by a
`ts.isX` predicate or a `SyntaxKind` comparison in the source, plus catch-all
kinds `otherToken` (a token of any other kind) and `other` (any other
non-token node). -/
inductive SyntaxKind where
  | catchClause
  | conditionalExpression
  | forInStatement
  | forOfStatement
  | forStatement
  | ifStatement
  | switchStatement
  | whileStatement
  | doStatement
  | arrowFunction
  | functionDeclaration
  | functionExpression
  | methodDeclaration
  | breakStatement
  | continueStatement
  | block
  | syntaxList
  | sourceFile
  | identifier
  | questionToken
  | colonToken
  | ifKeyword
  | elseKeyword
  | whileKeyword
  | openParenToken
  | closeParenToken
  | otherToken
  | other
  deriving DecidableEq, Repr

/-- A concrete-syntax-tree node: a kind together with the ordered children
returned by `node.getChildren()`. -/
inductive SNode where
  | mk (kind : SyntaxKind) (children : List SNode)

/-- The kind tag of a node. -/
def SNode.kind : SNode → SyntaxKind
  | .mk k _ => k

/-- The ordered children of a node, as `node.getChildren()` returns them. -/
def SNode.children : SNode → List SNode
  | .mk _ cs => cs

/-- The scoring-relevant part of an `OutputElem` record: its integer score
and the ordered child results.  The `name`/`line`/`column` fields are data
copied from the external tree provider and are omitted. -/
inductive OutputElem where
  | mk (score : Nat) (inner : List OutputElem)

/-- The score of a result record. -/
def OutputElem.score : OutputElem → Nat
  | .mk s _ => s

/-- The child results of a result record. -/
def OutputElem.inner : OutputElem → List OutputElem
  | .mk _ i => i

/-- Sum of the scores of a list of result records. -/
def sumScores (l : List OutputElem) : Nat :=
  (l.map OutputElem.score).sum

/-- The ways a traversal can abort: `unexpectedNode` embeds
`UnexpectedNodeError`, `iteratorEnded` embeds the exception thrown by the
`throwingIterator` helper when a handler consumes past the last child, and
`typeErr` embeds the runtime type error raised when a handler dereferences
an out-of-range child (`children.slice(0, -1)[0]` on a short child list). -/
inductive CCErr where
  | unexpectedNode
  | iteratorEnded
  | typeErr
  deriving DecidableEq, Repr

/-- Modelled from the spec: the helper `throwingIterator`, imported by the
engine from the repository's `util` module, whose source file is not among
the given sources.  Per the specification's error-handling design a
handler's positional child consumption aborts the traversal when it walks
off the children it expects, so the wrapped iterator yields the next child
of the remaining list and fails with `CCErr.iteratorEnded` when none is
left.  The handler embeddings below inline exactly this behaviour as
pattern matching on the remaining child list, so that their recursion stays
visibly well-founded. -/
def nextChild : List SNode → Except CCErr (SNode × List SNode)
  | [] => .error .iteratorEnded
  | c :: rest => .ok (c, rest)

/-- Embeds `ts.isToken`: true exactly for the token kinds (keywords,
punctuation, identifiers), false for statements, expressions, blocks,
syntax lists and source files. -/
def tsIsToken : SyntaxKind → Bool
  | .identifier | .questionToken | .colonToken | .ifKeyword | .elseKeyword
  | .whileKeyword | .openParenToken | .closeParenToken | .otherToken => true
  | _ => false

/-- Embeds `isBreakOrContinueToLabel`: a break or continue statement counts
as jumping to a label iff one of its children is an identifier. -/
def isBreakOrContinueToLabel (n : SNode) : Bool :=
  if n.kind = .breakStatement ∨ n.kind = .continueStatement then
    n.children.any (fun c => decide (c.kind = .identifier))
  else
    false

/-- Embeds `isForLikeStatement`. -/
def isForLikeStatement (n : SNode) : Bool :=
  decide (n.kind = .forInStatement) || decide (n.kind = .forOfStatement)
    || decide (n.kind = .forStatement)

/-- Embeds `isSyntaxList`. -/
def isSyntaxList (n : SNode) : Bool :=
  decide (n.kind = .syntaxList)

/-- Embeds the first universal rule of `NodeCost.calculate` (the
"certain language features carry an inherent cost" branch): an intrinsic
`+1` for catch clauses, conditional expressions, the three for-like loops,
if, switch, while, and labeled break/continue. -/
def inherentCost (n : SNode) : Nat :=
  if n.kind = .catchClause ∨ n.kind = .conditionalExpression
      ∨ n.kind = .forInStatement ∨ n.kind = .forOfStatement
      ∨ n.kind = .forStatement ∨ n.kind = .ifStatement
      ∨ n.kind = .switchStatement ∨ n.kind = .whileStatement
      ∨ isBreakOrContinueToLabel n = true then
    1
  else
    0

/-- Embeds the second universal rule of `NodeCost.calculate` (the
"increment for nesting level" branch): an extra `+depth` when `depth > 0`
for conditional expressions, the three for-like loops, if, switch and
while. -/
def nestingCost (n : SNode) (depth : Nat) : Nat :=
  if 0 < depth ∧ (n.kind = .conditionalExpression ∨ n.kind = .forInStatement
      ∨ n.kind = .forOfStatement ∨ n.kind = .forStatement
      ∨ n.kind = .ifStatement ∨ n.kind = .switchStatement
      ∨ n.kind = .whileStatement) then
    depth
  else
    0

mutual

/-- Embeds `isTopLevel`, over the ancestor chain of the node (innermost
ancestor first).  An empty chain is the `parent === undefined` case; a
source-file parent is top level; a non-block, non-source-file parent means
the walk never moves, `highestNonBlockAncestor === parent` holds and the
result is false; a block parent starts the upward walk through the block
ancestors. -/
def isTopLevel : List SNode → Bool
  | [] => true
  | parent :: rest =>
    if parent.kind = .sourceFile then true
    else if parent.kind = .block then isTopLevelWalk rest
    else false

/-- The `while (ts.isBlock(highestNonBlockAncestor))` walk of `isTopLevel`:
skip block ancestors; at the first non-block ancestor `a` the source
returns `isTopLevel(a)`, which inspects the chain above `a`.  Walking past
the end of the chain would dereference `undefined` in the source; it cannot
happen on a chain rooted at a source file, and the embedding returns true
there. -/
def isTopLevelWalk : List SNode → Bool
  | [] => true
  | a :: rest => if a.kind = .block then isTopLevelWalk rest else isTopLevel rest

end

theorem SyntaxKind.sizeOf_eq (k : SyntaxKind) : sizeOf k = 1 := by
  cases k <;> rfl

theorem SNode.sizeOf_children_lt (n : SNode) : sizeOf n.children + 1 < sizeOf n := by
  cases n with
  | mk k cs => simp [SNode.children, SyntaxKind.sizeOf_eq]; omega

theorem List.sizeOf_getLast_lt (l : List SNode) (h : l ≠ []) :
    sizeOf (l.getLast h) < sizeOf l :=
  List.sizeOf_lt_of_mem (List.getLast_mem h)

theorem SNode.one_le_sizeOf (n : SNode) : 1 ≤ sizeOf n := by
  cases n with
  | mk k cs => simp_arith

theorem List.one_le_sizeOf_snode (l : List SNode) : 1 ≤ sizeOf l := by
  cases l <;> simp_arith

mutual

/-- Embeds `calcElemCost`: score every child through the recursive call
`calcElemCost(child)` — whose depth argument is the default `0` — and then
add the `NodeCost` of the node itself at the given depth, concatenating the
child results with the results the `NodeCost` handlers produced. -/
def calcElemCost (node : SNode) (depth : Nat) (anc : List SNode) :
    Except CCErr OutputElem := do
  let p1 ← includeAll node.children 0 (node :: anc)
  let p2 ← nodeCostCalc node depth anc
  .ok (.mk (p1.1 + p2.1) (p1.2 ++ p2.2))

termination_by (sizeOf node, 2)
decreasing_by
all_goals
  first
  | decreasing_tactic
  | (simp_wf;
     apply Prod.Lex.left;
     have h1 := SNode.sizeOf_children_lt node;
     have h2 : sizeOf ([] : List SNode) = 1 := rfl;
     omega)

/-- Embeds `AbstractNodeCost.include`/`includeAll`: score each listed node
at the given depth, summing the scores and collecting the results in order.
The child loop at the top of `calcElemCost` performs this same accumulation
with depth `0`. -/
def includeAll (cs : List SNode) (depth : Nat) (anc : List SNode) :
    Except CCErr (Nat × List OutputElem) :=
  match cs with
  | [] => .ok (0, [])
  | c :: rest => do
    let e ← calcElemCost c depth anc
    let (s, i) ← includeAll rest depth anc
    .ok (e.score + s, e :: i)

termination_by (sizeOf cs, 0)

/-- Embeds `NodeCost.calculate`: the two universal rules (`inherentCost`
and `nestingCost`) followed by the construct dispatch chain, in the
source's `else if` order, falling through to scoring every child at the
same depth.  The handlers receive the node's children; a handler for a
function-like construct also receives the `AbstractFunctionCost` flag
`isTopLevel(node)`, computed from the node's ancestor chain. -/
def nodeCostCalc (node : SNode) (depth : Nat) (anc : List SNode) :
    Except CCErr (Nat × List OutputElem) := do
  let base := inherentCost node + nestingCost node depth
  let p ←
    if node.kind = .arrowFunction then
      arrowFunctionCost node.children depth (node :: anc) (isTopLevel anc)
    else if node.kind = .catchClause then
      includeAll node.children (depth + 1) (node :: anc)
    else if node.kind = .conditionalExpression then
      conditionalExpressionCost node.children [] depth (node :: anc)
    else if node.kind = .doStatement then
      doStatementCost node.children depth (node :: anc)
    else if isForLikeStatement node then
      forLikeStatementCost node.children depth (node :: anc)
    else if node.kind = .functionDeclaration then
      functionDeclarationCost node.children depth (node :: anc) (isTopLevel anc)
    else if node.kind = .functionExpression then
      functionExpressionCost node.children depth (node :: anc) (isTopLevel anc)
    else if node.kind = .ifStatement then
      ifStatementCost node.children depth (node :: anc)
    else if node.kind = .methodDeclaration then
      methodDeclarationCost node.children depth (node :: anc) (isTopLevel anc)
    else if node.kind = .switchStatement then
      switchStatementCost node.children depth (node :: anc)
    else if node.kind = .whileStatement then
      whileStatementCost node.children depth (node :: anc)
    else
      includeAll node.children depth (node :: anc)
  .ok (base + p.1, p.2)

termination_by (sizeOf node, 1)
decreasing_by
all_goals
  first
  | decreasing_tactic
  | (simp_wf;
     apply Prod.Lex.left;
     have h1 := SNode.sizeOf_children_lt node;
     have h2 : sizeOf ([] : List SNode) = 1 := rfl;
     omega)

/-- Embeds `ArrowFunctionCost.calculate`: consume the first child, include
the second (the parameter syntax list) at the current depth, consume two
more children, and include the fifth (the body) at the current depth when
top level, else at `depth + 1`. -/
def arrowFunctionCost (cs : List SNode) (depth : Nat) (anc : List SNode)
    (topLevel : Bool) : Except CCErr (Nat × List OutputElem) :=
  match cs with
  | [] => .error .iteratorEnded
  | [_c1] => .error .iteratorEnded
  | [_c1, c2] => do
    let _e2 ← calcElemCost c2 depth anc
    .error .iteratorEnded
  | [_c1, c2, _c3] => do
    let _e2 ← calcElemCost c2 depth anc
    .error .iteratorEnded
  | [_c1, c2, _c3, _c4] => do
    let _e2 ← calcElemCost c2 depth anc
    .error .iteratorEnded
  | _c1 :: c2 :: _c3 :: _c4 :: c5 :: _ => do
    let e2 ← calcElemCost c2 depth anc
    let e5 ← calcElemCost c5 (if topLevel then depth else depth + 1) anc
    .ok (e2.score + e5.score, [e2, e5])

termination_by (sizeOf cs, 1)

/-- Embeds `ConditionalExpressionCost.calculate`: walk the children keeping
a run accumulator; a `?` token aggregates the accumulated run at the
current depth, a `:` token aggregates it at `depth + 1`, and after the loop
the remaining run is aggregated at the current depth.  On every other child
the source executes `childNodesToAggregate.push()` with no argument, so
nothing is ever appended to the run accumulator. -/
def conditionalExpressionCost (cs : List SNode) (acc : List SNode)
    (depth : Nat) (anc : List SNode) : Except CCErr (Nat × List OutputElem) :=
  match cs with
  | [] => includeAll acc depth anc
  | child :: rest =>
    if tsIsToken child.kind = true ∧ child.kind = .questionToken then do
      let (s1, i1) ← includeAll acc depth anc
      let (s2, i2) ← conditionalExpressionCost rest [] depth anc
      .ok (s1 + s2, i1 ++ i2)
    else if tsIsToken child.kind = true ∧ child.kind = .colonToken then do
      let (s1, i1) ← includeAll acc (depth + 1) anc
      let (s2, i2) ← conditionalExpressionCost rest [] depth anc
      .ok (s1 + s2, i1 ++ i2)
    else
      conditionalExpressionCost rest acc depth anc

termination_by (sizeOf cs + sizeOf acc, 1)
decreasing_by
all_goals
  first
  | decreasing_tactic
  | (simp_wf;
     apply Prod.Lex.left;
     have h1 := SNode.one_le_sizeOf c;
     have h2 := List.one_le_sizeOf_snode acc;
     have h3 : sizeOf ([] : List SNode) = 1 := rfl;
     omega)

/-- Embeds `DoStatementCost.calculate`: consume the `do` token, include the
block at `depth + 1`, consume the `while` keyword and the open parenthesis,
and include the condition at the current depth. -/
def doStatementCost (cs : List SNode) (depth : Nat) (anc : List SNode) :
    Except CCErr (Nat × List OutputElem) :=
  match cs with
  | [] => .error .iteratorEnded
  | [_doTok] => .error .iteratorEnded
  | [_doTok, blk] => do
    let _e1 ← calcElemCost blk (depth + 1) anc
    .error .iteratorEnded
  | [_doTok, blk, _c3] => do
    let _e1 ← calcElemCost blk (depth + 1) anc
    .error .iteratorEnded
  | [_doTok, blk, _c3, _c4] => do
    let _e1 ← calcElemCost blk (depth + 1) anc
    .error .iteratorEnded
  | _doTok :: blk :: _whileTok :: _openParen :: cond :: _ => do
    let e1 ← calcElemCost blk (depth + 1) anc
    let e2 ← calcElemCost cond depth anc
    .ok (e1.score + e2.score, [e1, e2])

termination_by (sizeOf cs, 1)

/-- Embeds `ForLikeStatementCost.calculate`: consume the `for` keyword and
the open parenthesis, then hand the rest to the header loop. -/
def forLikeStatementCost (cs : List SNode) (depth : Nat) (anc : List SNode) :
    Except CCErr (Nat × List OutputElem) :=
  match cs with
  | [] => .error .iteratorEnded
  | [_forTok] => .error .iteratorEnded
  | _forTok :: _openParen :: rest => forLikeLoop rest depth anc

termination_by (sizeOf cs, 2)

/-- The consumption loop of `ForLikeStatementCost.calculate`: include every
child at the current depth up to the close parenthesis, then include the
next child (the loop body) at `depth + 1`. -/
def forLikeLoop (cs : List SNode) (depth : Nat) (anc : List SNode) :
    Except CCErr (Nat × List OutputElem) :=
  match cs with
  | [] => .error .iteratorEnded
  | child :: rest =>
    if tsIsToken child.kind = true ∧ child.kind = .closeParenToken then
      match rest with
      | [] => .error .iteratorEnded
      | body :: _ => do
        let e ← calcElemCost body (depth + 1) anc
        .ok (e.score, [e])
    else do
      let e ← calcElemCost child depth anc
      let (s, i) ← forLikeLoop rest depth anc
      .ok (e.score + s, e :: i)

termination_by (sizeOf cs, 1)

/-- Embeds `FunctionDeclarationCost.calculate`: walk the children; a syntax
list child is included at the current depth, a block child is included at
`depth + 1` and ends the walk, every other child is skipped.  The
`topLevel` flag inherited from `AbstractFunctionCost` is computed by the
dispatcher but never read by this handler. -/
def functionDeclarationCost (cs : List SNode) (depth : Nat) (anc : List SNode)
    (topLevel : Bool) : Except CCErr (Nat × List OutputElem) :=
  match cs with
  | [] => .error .iteratorEnded
  | child :: rest =>
    if isSyntaxList child = true then do
      let e ← calcElemCost child depth anc
      let (s, i) ← functionDeclarationCost rest depth anc topLevel
      .ok (e.score + s, e :: i)
    else if child.kind = .block then do
      let e ← calcElemCost child (depth + 1) anc
      .ok (e.score, [e])
    else
      functionDeclarationCost rest depth anc topLevel

termination_by (sizeOf cs, 1)

/-- Embeds `FunctionExpressionCost.calculate`: `functionBody` is the slice
holding the last child and `functionDecl` is the first element of the slice
of all children but the last; the handler includes the `functionBody` slice
at the current depth and then `functionDecl` at `depth + 1`.  With fewer
than two children `functionDecl` is `undefined` and the inner
`calcElemCost` call of `include` dereferences it.  The `topLevel` flag
inherited from `AbstractFunctionCost` is never read by this handler. -/
def functionExpressionCost (cs : List SNode) (depth : Nat) (anc : List SNode)
    (topLevel : Bool) : Except CCErr (Nat × List OutputElem) :=
  match cs with
  | [] => .error .typeErr
  | [c] => do
    let _e ← calcElemCost c depth anc
    .error .typeErr
  | c :: d :: rest => do
    let e1 ← calcElemCost ((d :: rest).getLast (by simp)) depth anc
    let e2 ← calcElemCost c (depth + 1) anc
    .ok (e1.score + e2.score, [e1, e2])

termination_by (sizeOf cs, 1)
decreasing_by
all_goals
  first
  | decreasing_tactic
  | (simp_wf;
     apply Prod.Lex.left;
     first
     | omega
     | exact Nat.lt_trans (List.sizeOf_getLast_lt _ (by simp)) (by simp_arith))

/-- Embeds the `while (true)` consumption loop of
`IfStatementCost.calculate`: an `if` keyword consumes the open parenthesis
and includes the condition at the current depth; a close parenthesis
includes the then-branch at `depth + 1`; an `else` keyword includes the
else-branch at `depth + 1` and stops; any other child raises
`UnexpectedNodeError`, and running out of children raises the iterator's
error. -/
def ifStatementCost (cs : List SNode) (depth : Nat) (anc : List SNode) :
    Except CCErr (Nat × List OutputElem) :=
  match cs with
  | [] => .error .iteratorEnded
  | child :: rest =>
    if tsIsToken child.kind = true ∧ child.kind = .ifKeyword then
      match rest with
      | [] => .error .iteratorEnded
      | _openParen :: rest2 =>
        match rest2 with
        | [] => .error .iteratorEnded
        | cond :: rest3 => do
          let e ← calcElemCost cond depth anc
          let (s, i) ← ifStatementCost rest3 depth anc
          .ok (e.score + s, e :: i)
    else if tsIsToken child.kind = true ∧ child.kind = .closeParenToken then
      match rest with
      | [] => .error .iteratorEnded
      | thenBranch :: rest2 => do
        let e ← calcElemCost thenBranch (depth + 1) anc
        let (s, i) ← ifStatementCost rest2 depth anc
        .ok (e.score + s, e :: i)
    else if tsIsToken child.kind = true ∧ child.kind = .elseKeyword then
      match rest with
      | [] => .error .iteratorEnded
      | elseBranch :: _ => do
        let e ← calcElemCost elseBranch (depth + 1) anc
        .ok (e.score, [e])
    else
      .error .unexpectedNode

termination_by (sizeOf cs, 1)

/-- Embeds `MethodDeclarationCost.calculate`: walk the children, including
each at the current depth, until a block child is seen; there the source
includes `nextChild()` — the child after the block — at the current depth
when top level, else at `depth + 1`, and stops.  When the block is the last
child the iterator is already exhausted and the `nextChild()` call fails. -/
def methodDeclarationCost (cs : List SNode) (depth : Nat) (anc : List SNode)
    (topLevel : Bool) : Except CCErr (Nat × List OutputElem) :=
  match cs with
  | [] => .error .iteratorEnded
  | child :: rest =>
    if child.kind = .block then
      match rest with
      | [] => .error .iteratorEnded
      | afterBlock :: _ => do
        let e ← calcElemCost afterBlock (if topLevel then depth else depth + 1) anc
        .ok (e.score, [e])
    else do
      let e ← calcElemCost child depth anc
      let (s, i) ← methodDeclarationCost rest depth anc topLevel
      .ok (e.score + s, e :: i)

termination_by (sizeOf cs, 1)

/-- Embeds `SwitchStatementCost.calculate`: consume the `switch` keyword
and the open parenthesis, include the condition at the current depth,
consume the close parenthesis, and include the case block at `depth + 1`. -/
def switchStatementCost (cs : List SNode) (depth : Nat) (anc : List SNode) :
    Except CCErr (Nat × List OutputElem) :=
  match cs with
  | [] => .error .iteratorEnded
  | [_switchTok] => .error .iteratorEnded
  | [_switchTok, _openParen] => .error .iteratorEnded
  | [_switchTok, _openParen, cond] => do
    let _e1 ← calcElemCost cond depth anc
    .error .iteratorEnded
  | [_switchTok, _openParen, cond, _closeParen] => do
    let _e1 ← calcElemCost cond depth anc
    .error .iteratorEnded
  | _switchTok :: _openParen :: cond :: _closeParen :: cases :: _ => do
    let e1 ← calcElemCost cond depth anc
    let e2 ← calcElemCost cases (depth + 1) anc
    .ok (e1.score + e2.score, [e1, e2])

termination_by (sizeOf cs, 1)

/-- Embeds `WhileStatementCost.calculate`.  The loop body tests the current
child twice: a first `if` for the `while` keyword, then — with no `else`
between them in the source — a second `if` for the close parenthesis whose
`else` branch raises `UnexpectedNodeError`.  A `while`-keyword child
therefore consumes the open parenthesis, includes the condition at the
current depth, and then falls into the second test, which fails and raises;
a close-parenthesis child includes the body at `depth + 1` and stops; any
other child raises.  Every path through the loop body raises or stops, so
the loop never reaches a second iteration. -/
def whileStatementCost (cs : List SNode) (depth : Nat) (anc : List SNode) :
    Except CCErr (Nat × List OutputElem) :=
  match cs with
  | [] => .error .iteratorEnded
  | child :: rest =>
    if tsIsToken child.kind = true ∧ child.kind = .whileKeyword then
      match rest with
      | [] => .error .iteratorEnded
      | _openParen :: rest2 =>
        match rest2 with
        | [] => .error .iteratorEnded
        | cond :: _ => do
          let _e ← calcElemCost cond depth anc
          .error .unexpectedNode
    else if tsIsToken child.kind = true ∧ child.kind = .closeParenToken then
      match rest with
      | [] => .error .iteratorEnded
      | body :: _ => do
        let e ← calcElemCost body (depth + 1) anc
        .ok (e.score, [e])
    else
      .error .unexpectedNode

termination_by (sizeOf cs, 1)

end

/-- Embeds `FileCost` and so `calcFileCost`: every child of the source file
is included at depth 0; the file node sits at the root, so its children's
ancestor chain is just the file node. -/
def calcFileCost (file : SNode) : Except CCErr (Nat × List OutputElem) :=
  includeAll file.children 0 [file]

/-- A token node of the given kind (tokens have no children). -/
def tok (k : SyntaxKind) : SNode :=
  .mk k []

/-- A generic leaf node with no special handling and no cost. -/
def leafOther : SNode :=
  .mk .other []

/-- An identifier leaf. -/
def identLeaf : SNode :=
  .mk .identifier []

/-- A childless conditional-expression node: a convenient depth probe,
since its score under `calcElemCost` at depth `d` is `1 + d` for `d > 0`
and `1` at depth `0`. -/
def condExprLeaf : SNode :=
  .mk .conditionalExpression []

/-- A source-file node (only its kind matters to `isTopLevel`). -/
def sfNode : SNode :=
  .mk .sourceFile []

/-- A block node with the given children. -/
def blockNode (cs : List SNode) : SNode :=
  .mk .block cs

/-- A well-shaped `if` statement without an `else` part:
`if` keyword, `(`, condition, `)`, then-branch. -/
def ifNoElseNode : SNode :=
  .mk .ifStatement [tok .ifKeyword, tok .openParenToken, leafOther,
    tok .closeParenToken, leafOther]

/-- A well-shaped `if` statement with an `else` part. -/
def ifElseNode : SNode :=
  .mk .ifStatement [tok .ifKeyword, tok .openParenToken, leafOther,
    tok .closeParenToken, leafOther, tok .elseKeyword, leafOther]

/-- A function declaration whose only (relevant) child is its block body,
itself holding one conditional expression as a depth probe. -/
def fdNode : SNode :=
  .mk .functionDeclaration [blockNode [condExprLeaf]]

/-- A method declaration whose block body is its last child. -/
def mdNode : SNode :=
  .mk .methodDeclaration [identLeaf, blockNode []]

/-- A break statement naming a label: its child list holds the label
identifier. -/
def labeledBreakNode : SNode :=
  .mk .breakStatement [identLeaf]

/-- A ternary `c ? t : e` whose three operands are childless conditional
expressions, used as depth probes. -/
def ternaryNode : SNode :=
  .mk .conditionalExpression [condExprLeaf, tok .questionToken, condExprLeaf,
    tok .colonToken, condExprLeaf]

/-- A function expression with a leading name child, one further signature
token and a block body (the last child) holding a depth probe. -/
def feNode : SNode :=
  .mk .functionExpression [identLeaf, tok .otherToken, blockNode [condExprLeaf]]

/-- A node of an ordinary kind with a single depth-probe child, scored by
the dispatcher's default branch. -/
def c10Node : SNode :=
  .mk .other [condExprLeaf]

/-! ### Basic evaluation lemmas -/

@[simp] theorem exceptBind_ok {α β : Type} (a : α) (f : α → Except CCErr β) :
    (Except.ok a >>= f : Except CCErr β) = f a := rfl

@[simp] theorem exceptBind_error {α β : Type} (e : CCErr) (f : α → Except CCErr β) :
    ((Except.error e : Except CCErr α) >>= f : Except CCErr β) = .error e := rfl

@[simp] theorem exceptPure_eq {α : Type} (a : α) :
    (pure a : Except CCErr α) = .ok a := rfl

@[simp] theorem exceptMap_ok {α β : Type} (f : α → β) (a : α) :
    (Except.ok a : Except CCErr α).map f = .ok (f a) := rfl

@[simp] theorem exceptMap_error {α β : Type} (f : α → β) (e : CCErr) :
    (Except.error e : Except CCErr α).map f = .error e := rfl

@[simp] theorem sumScores_nil : sumScores [] = 0 := rfl

@[simp] theorem sumScores_cons (e : OutputElem) (l : List OutputElem) :
    sumScores (e :: l) = e.score + sumScores l := by
  simp [sumScores]

@[simp] theorem sumScores_append (l1 l2 : List OutputElem) :
    sumScores (l1 ++ l2) = sumScores l1 + sumScores l2 := by
  simp [sumScores]

@[simp] theorem OutputElem.score_mk (s : Nat) (i : List OutputElem) :
    (OutputElem.mk s i).score = s := rfl

@[simp] theorem OutputElem.inner_mk (s : Nat) (i : List OutputElem) :
    (OutputElem.mk s i).inner = i := rfl

@[simp] theorem SNode.kind_mk (k : SyntaxKind) (cs : List SNode) :
    (SNode.mk k cs).kind = k := rfl

@[simp] theorem SNode.children_mk (k : SyntaxKind) (cs : List SNode) :
    (SNode.mk k cs).children = cs := rfl

/-- Soundness of `includeAll`: on success the returned score is the sum of
the collected result scores, and the results correspond one-to-one, in
order, to the scored nodes. -/
theorem includeAll_ok (cs : List SNode) (depth : Nat) (anc : List SNode)
    (s : Nat) (i : List OutputElem) (h : includeAll cs depth anc = .ok (s, i)) :
    s = sumScores i ∧
      List.Forall₂ (fun c e => calcElemCost c depth anc = .ok e) cs i := by
  induction cs generalizing s i with
  | nil =>
    simp only [includeAll] at h
    obtain ⟨hs, hi⟩ := Except.ok.inj h |> Prod.mk.inj
    subst hs; subst hi
    simp
  | cons c rest ih =>
    simp only [includeAll] at h
    cases h1 : calcElemCost c depth anc with
    | error e => rw [h1] at h; simp at h
    | ok e =>
      rw [h1] at h
      simp only [exceptBind_ok] at h
      cases h2 : includeAll rest depth anc with
      | error e2 => rw [h2] at h; simp at h
      | ok p =>
        obtain ⟨s2, i2⟩ := p
        rw [h2] at h
        simp only [exceptBind_ok] at h
        obtain ⟨hs, hi⟩ := Except.ok.inj h |> Prod.mk.inj
        subst hs; subst hi
        obtain ⟨hsum, hall⟩ := ih s2 i2 h2
        subst hsum
        exact ⟨by simp, List.Forall₂.cons h1 hall⟩

/-- The sum half of `includeAll_ok`. -/
theorem includeAll_sum (cs : List SNode) (depth : Nat) (anc : List SNode)
    (s : Nat) (i : List OutputElem)
    (h : includeAll cs depth anc = .ok (s, i)) : s = sumScores i :=
  (includeAll_ok cs depth anc s i h).1

/-- The run accumulator of the conditional-expression handler never grows
(the source's `push()` call appends nothing), so the handler succeeds with
score `0` and no collected results, whatever the children are. -/
theorem conditionalExpressionCost_empty (cs : List SNode) (depth : Nat)
    (anc : List SNode) :
    conditionalExpressionCost cs [] depth anc = .ok (0, []) := by
  induction cs with
  | nil => simp [conditionalExpressionCost, includeAll]
  | cons c rest ih =>
    simp only [conditionalExpressionCost]
    split
    · simp [includeAll, ih]
    · split
      · simp [includeAll, ih]
      · exact ih

/-- Helper for the dispatcher: peeling the final
`.ok (base + score, results)` step off a successful computation. -/
theorem bind_base_ok {X : Except CCErr (Nat × List OutputElem)} {b s : Nat}
    {i : List OutputElem}
    (h : (X >>= fun p => Except.ok (b + p.1, p.2)) = Except.ok (s, i)) :
    ∃ s0, X = .ok (s0, i) ∧ s = b + s0 := by
  cases hx : X with
  | error e => rw [hx] at h; simp at h
  | ok p =>
    obtain ⟨s0, i0⟩ := p
    rw [hx] at h
    simp only [exceptBind_ok] at h
    obtain ⟨hs, hi⟩ := Except.ok.inj h |> Prod.mk.inj
    subst hs; subst hi
    exact ⟨s0, rfl, rfl⟩

/-- On success the arrow-function handler's score is the sum of its
collected result scores. -/
theorem arrowFunctionCost_sum (cs : List SNode) (depth : Nat)
    (anc : List SNode) (tl : Bool) (s : Nat) (i : List OutputElem)
    (h : arrowFunctionCost cs depth anc tl = .ok (s, i)) : s = sumScores i := by
  match cs with
  | [] => simp [arrowFunctionCost] at h
  | [c1] => simp [arrowFunctionCost] at h
  | [c1, c2] =>
    simp only [arrowFunctionCost] at h
    cases h1 : calcElemCost c2 depth anc <;> rw [h1] at h <;> simp at h
  | [c1, c2, c3] =>
    simp only [arrowFunctionCost] at h
    cases h1 : calcElemCost c2 depth anc <;> rw [h1] at h <;> simp at h
  | [c1, c2, c3, c4] =>
    simp only [arrowFunctionCost] at h
    cases h1 : calcElemCost c2 depth anc <;> rw [h1] at h <;> simp at h
  | c1 :: c2 :: c3 :: c4 :: c5 :: crest =>
    simp only [arrowFunctionCost] at h
    cases h1 : calcElemCost c2 depth anc with
    | error e => rw [h1] at h; simp at h
    | ok e2 =>
      rw [h1] at h
      simp only [exceptBind_ok] at h
      cases h2 : calcElemCost c5 (if tl then depth else depth + 1) anc with
      | error e => rw [h2] at h; simp at h
      | ok e5 =>
        rw [h2] at h
        simp only [exceptBind_ok] at h
        obtain ⟨hs, hi⟩ := Except.ok.inj h |> Prod.mk.inj
        subst hs; subst hi
        simp

/-- On success the do-statement handler's score is the sum of its collected
result scores. -/
theorem doStatementCost_sum (cs : List SNode) (depth : Nat)
    (anc : List SNode) (s : Nat) (i : List OutputElem)
    (h : doStatementCost cs depth anc = .ok (s, i)) : s = sumScores i := by
  match cs with
  | [] => simp [doStatementCost] at h
  | [c1] => simp [doStatementCost] at h
  | [c1, c2] =>
    simp only [doStatementCost] at h
    cases h1 : calcElemCost c2 (depth + 1) anc <;> rw [h1] at h <;> simp at h
  | [c1, c2, c3] =>
    simp only [doStatementCost] at h
    cases h1 : calcElemCost c2 (depth + 1) anc <;> rw [h1] at h <;> simp at h
  | [c1, c2, c3, c4] =>
    simp only [doStatementCost] at h
    cases h1 : calcElemCost c2 (depth + 1) anc <;> rw [h1] at h <;> simp at h
  | c1 :: c2 :: c3 :: c4 :: c5 :: crest =>
    simp only [doStatementCost] at h
    cases h1 : calcElemCost c2 (depth + 1) anc with
    | error e => rw [h1] at h; simp at h
    | ok e1 =>
      rw [h1] at h
      simp only [exceptBind_ok] at h
      cases h2 : calcElemCost c5 depth anc with
      | error e => rw [h2] at h; simp at h
      | ok e2 =>
        rw [h2] at h
        simp only [exceptBind_ok] at h
        obtain ⟨hs, hi⟩ := Except.ok.inj h |> Prod.mk.inj
        subst hs; subst hi
        simp

/-- On success the switch handler's score is the sum of its collected
result scores. -/
theorem switchStatementCost_sum (cs : List SNode) (depth : Nat)
    (anc : List SNode) (s : Nat) (i : List OutputElem)
    (h : switchStatementCost cs depth anc = .ok (s, i)) : s = sumScores i := by
  match cs with
  | [] => simp [switchStatementCost] at h
  | [c1] => simp [switchStatementCost] at h
  | [c1, c2] => simp [switchStatementCost] at h
  | [c1, c2, c3] =>
    simp only [switchStatementCost] at h
    cases h1 : calcElemCost c3 depth anc <;> rw [h1] at h <;> simp at h
  | [c1, c2, c3, c4] =>
    simp only [switchStatementCost] at h
    cases h1 : calcElemCost c3 depth anc <;> rw [h1] at h <;> simp at h
  | c1 :: c2 :: c3 :: c4 :: c5 :: crest =>
    simp only [switchStatementCost] at h
    cases h1 : calcElemCost c3 depth anc with
    | error e => rw [h1] at h; simp at h
    | ok e1 =>
      rw [h1] at h
      simp only [exceptBind_ok] at h
      cases h2 : calcElemCost c5 (depth + 1) anc with
      | error e => rw [h2] at h; simp at h
      | ok e2 =>
        rw [h2] at h
        simp only [exceptBind_ok] at h
        obtain ⟨hs, hi⟩ := Except.ok.inj h |> Prod.mk.inj
        subst hs; subst hi
        simp

/-- On success the for-like header loop's score is the sum of its collected
result scores. -/
theorem forLikeLoop_sum (cs : List SNode) (depth : Nat) (anc : List SNode)
    (s : Nat) (i : List OutputElem)
    (h : forLikeLoop cs depth anc = .ok (s, i)) : s = sumScores i := by
  induction cs generalizing s i with
  | nil => simp [forLikeLoop] at h
  | cons child rest ih =>
    rw [forLikeLoop.eq_def] at h
    simp only [] at h
    split at h
    · cases rest with
      | nil => simp at h
      | cons body brest =>
        simp only at h
        cases h1 : calcElemCost body (depth + 1) anc with
        | error e => rw [h1] at h; simp at h
        | ok e =>
          rw [h1] at h
          simp only [exceptBind_ok] at h
          obtain ⟨hs, hi⟩ := Except.ok.inj h |> Prod.mk.inj
          subst hs; subst hi
          simp
    · cases h1 : calcElemCost child depth anc with
      | error e => rw [h1] at h; simp at h
      | ok e =>
        rw [h1] at h
        simp only [exceptBind_ok] at h
        cases h2 : forLikeLoop rest depth anc with
        | error e2 => rw [h2] at h; simp at h
        | ok p =>
          obtain ⟨s2, i2⟩ := p
          rw [h2] at h
          simp only [exceptBind_ok] at h
          obtain ⟨hs, hi⟩ := Except.ok.inj h |> Prod.mk.inj
          subst hs; subst hi
          have hrec := ih s2 i2 h2
          subst hrec
          simp

/-- On success the for-like handler's score is the sum of its collected
result scores. -/
theorem forLikeStatementCost_sum (cs : List SNode) (depth : Nat)
    (anc : List SNode) (s : Nat) (i : List OutputElem)
    (h : forLikeStatementCost cs depth anc = .ok (s, i)) : s = sumScores i := by
  match cs with
  | [] => simp [forLikeStatementCost] at h
  | [c1] => simp [forLikeStatementCost] at h
  | c1 :: c2 :: rest =>
    simp only [forLikeStatementCost] at h
    exact forLikeLoop_sum rest depth anc s i h

/-- On success the function-declaration handler's score is the sum of its
collected result scores. -/
theorem functionDeclarationCost_sum (cs : List SNode) (depth : Nat)
    (anc : List SNode) (tl : Bool) (s : Nat) (i : List OutputElem)
    (h : functionDeclarationCost cs depth anc tl = .ok (s, i)) :
    s = sumScores i := by
  induction cs generalizing s i with
  | nil => simp [functionDeclarationCost] at h
  | cons child rest ih =>
    simp only [functionDeclarationCost] at h
    split at h
    · cases h1 : calcElemCost child depth anc with
      | error e => rw [h1] at h; simp at h
      | ok e =>
        rw [h1] at h
        simp only [exceptBind_ok] at h
        cases h2 : functionDeclarationCost rest depth anc tl with
        | error e2 => rw [h2] at h; simp at h
        | ok p =>
          obtain ⟨s2, i2⟩ := p
          rw [h2] at h
          simp only [exceptBind_ok] at h
          obtain ⟨hs, hi⟩ := Except.ok.inj h |> Prod.mk.inj
          subst hs; subst hi
          have hrec := ih s2 i2 h2
          subst hrec
          simp
    · split at h
      · cases h1 : calcElemCost child (depth + 1) anc with
        | error e => rw [h1] at h; simp at h
        | ok e =>
          rw [h1] at h
          simp only [exceptBind_ok] at h
          obtain ⟨hs, hi⟩ := Except.ok.inj h |> Prod.mk.inj
          subst hs; subst hi
          simp
      · exact ih s i h

/-- On success the function-expression handler's score is the sum of its
collected result scores. -/
theorem functionExpressionCost_sum (cs : List SNode) (depth : Nat)
    (anc : List SNode) (tl : Bool) (s : Nat) (i : List OutputElem)
    (h : functionExpressionCost cs depth anc tl = .ok (s, i)) :
    s = sumScores i := by
  match cs with
  | [] => simp [functionExpressionCost] at h
  | [c] =>
    simp only [functionExpressionCost] at h
    cases h1 : calcElemCost c depth anc <;> rw [h1] at h <;> simp at h
  | c :: d :: rest =>
    simp only [functionExpressionCost] at h
    cases h1 : calcElemCost ((d :: rest).getLast (by simp)) depth anc with
    | error e => rw [h1] at h; simp at h
    | ok e1 =>
      rw [h1] at h
      simp only [exceptBind_ok] at h
      cases h2 : calcElemCost c (depth + 1) anc with
      | error e => rw [h2] at h; simp at h
      | ok e2 =>
        rw [h2] at h
        simp only [exceptBind_ok] at h
        obtain ⟨hs, hi⟩ := Except.ok.inj h |> Prod.mk.inj
        subst hs; subst hi
        simp

/-- On success the method-declaration handler's score is the sum of its
collected result scores. -/
theorem methodDeclarationCost_sum (cs : List SNode) (depth : Nat)
    (anc : List SNode) (tl : Bool) (s : Nat) (i : List OutputElem)
    (h : methodDeclarationCost cs depth anc tl = .ok (s, i)) :
    s = sumScores i := by
  induction cs generalizing s i with
  | nil => simp [methodDeclarationCost] at h
  | cons child rest ih =>
    rw [methodDeclarationCost.eq_def] at h
    simp only [] at h
    split at h
    · cases rest with
      | nil => simp at h
      | cons afterBlock brest =>
        simp only at h
        cases h1 : calcElemCost afterBlock (if tl then depth else depth + 1) anc with
        | error e => rw [h1] at h; simp at h
        | ok e =>
          rw [h1] at h
          simp only [exceptBind_ok] at h
          obtain ⟨hs, hi⟩ := Except.ok.inj h |> Prod.mk.inj
          subst hs; subst hi
          simp
    · cases h1 : calcElemCost child depth anc with
      | error e => rw [h1] at h; simp at h
      | ok e =>
        rw [h1] at h
        simp only [exceptBind_ok] at h
        cases h2 : methodDeclarationCost rest depth anc tl with
        | error e2 => rw [h2] at h; simp at h
        | ok p =>
          obtain ⟨s2, i2⟩ := p
          rw [h2] at h
          simp only [exceptBind_ok] at h
          obtain ⟨hs, hi⟩ := Except.ok.inj h |> Prod.mk.inj
          subst hs; subst hi
          have hrec := ih s2 i2 h2
          subst hrec
          simp

/-- On success the while handler's score is the sum of its collected result
scores. -/
theorem whileStatementCost_sum (cs : List SNode) (depth : Nat)
    (anc : List SNode) (s : Nat) (i : List OutputElem)
    (h : whileStatementCost cs depth anc = .ok (s, i)) : s = sumScores i := by
  match cs with
  | [] => simp [whileStatementCost] at h
  | child :: rest =>
    rw [whileStatementCost.eq_def] at h
    simp only [] at h
    split at h
    · cases rest with
      | nil => simp at h
      | cons op rest2 =>
        cases rest2 with
        | nil => simp at h
        | cons cond rest3 =>
          simp at h
          cases h1 : calcElemCost cond depth anc <;> rw [h1] at h <;> simp at h
    · split at h
      · cases rest with
        | nil => simp at h
        | cons body brest =>
          simp at h
          cases h1 : calcElemCost body (depth + 1) anc with
          | error e => rw [h1] at h; simp at h
          | ok e =>
            rw [h1] at h
            simp only [exceptBind_ok] at h
            obtain ⟨hs, hi⟩ := Except.ok.inj h |> Prod.mk.inj
            subst hs; subst hi
            simp
      · simp at h

/-- On success the if handler's score is the sum of its collected result
scores (auxiliary form, by strong induction on the child-list length). -/
theorem ifStatementCost_sum_aux (n : Nat) :
    ∀ (cs : List SNode), cs.length ≤ n → ∀ (depth : Nat) (anc : List SNode)
      (s : Nat) (i : List OutputElem),
      ifStatementCost cs depth anc = .ok (s, i) → s = sumScores i := by
  induction n with
  | zero =>
    intro cs hlen depth anc s i h
    cases cs with
    | nil => simp [ifStatementCost] at h
    | cons c rest => simp at hlen
  | succ n ih =>
    intro cs hlen depth anc s i h
    cases cs with
    | nil => simp [ifStatementCost] at h
    | cons child rest =>
      rw [ifStatementCost.eq_def] at h
      simp only [] at h
      split at h
      · cases rest with
        | nil => simp at h
        | cons op rest2 =>
          cases rest2 with
          | nil => simp at h
          | cons cond rest3 =>
            simp only at h
            cases h1 : calcElemCost cond depth anc with
            | error e => rw [h1] at h; simp at h
            | ok e =>
              rw [h1] at h
              simp only [exceptBind_ok] at h
              cases h2 : ifStatementCost rest3 depth anc with
              | error e2 => rw [h2] at h; simp at h
              | ok p =>
                obtain ⟨s2, i2⟩ := p
                rw [h2] at h
                simp only [exceptBind_ok] at h
                obtain ⟨hs, hi⟩ := Except.ok.inj h |> Prod.mk.inj
                subst hs; subst hi
                have hrec := ih rest3 (by simp at hlen; omega) depth anc s2 i2 h2
                subst hrec
                simp
      · split at h
        · cases rest with
          | nil => simp at h
          | cons thenB rest2 =>
            simp at h
            cases h1 : calcElemCost thenB (depth + 1) anc with
            | error e => rw [h1] at h; simp at h
            | ok e =>
              rw [h1] at h
              simp only [exceptBind_ok] at h
              cases h2 : ifStatementCost rest2 depth anc with
              | error e2 => rw [h2] at h; simp at h
              | ok p =>
                obtain ⟨s2, i2⟩ := p
                rw [h2] at h
                simp only [exceptBind_ok] at h
                obtain ⟨hs, hi⟩ := Except.ok.inj h |> Prod.mk.inj
                subst hs; subst hi
                have hrec := ih rest2 (by simp at hlen; omega) depth anc s2 i2 h2
                subst hrec
                simp
        · split at h
          · cases rest with
            | nil => simp at h
            | cons elseB rest2 =>
              simp at h
              cases h1 : calcElemCost elseB (depth + 1) anc with
              | error e => rw [h1] at h; simp at h
              | ok e =>
                rw [h1] at h
                simp only [exceptBind_ok] at h
                obtain ⟨hs, hi⟩ := Except.ok.inj h |> Prod.mk.inj
                subst hs; subst hi
                simp
          · simp at h

/-- On success the if handler's score is the sum of its collected result
scores. -/
theorem ifStatementCost_sum (cs : List SNode) (depth : Nat)
    (anc : List SNode) (s : Nat) (i : List OutputElem)
    (h : ifStatementCost cs depth anc = .ok (s, i)) : s = sumScores i :=
  ifStatementCost_sum_aux cs.length cs le_rfl depth anc s i h

/-- Helper: a successful dispatch branch of the form
`handler >>= fun p => .ok (base + p.1, p.2)` yields `base` plus the
handler's score, and the handler's own score is the sum of its results. -/
theorem dispatch_sum {X : Except CCErr (Nat × List OutputElem)} {b s : Nat}
    {i : List OutputElem}
    (hsum : ∀ s0 i0, X = .ok (s0, i0) → s0 = sumScores i0)
    (h : (X >>= fun p => Except.ok (b + p.1, p.2)) = Except.ok (s, i)) :
    s = b + sumScores i := by
  cases hx : X with
  | error e => rw [hx] at h; simp at h
  | ok p =>
    obtain ⟨s0, i0⟩ := p
    rw [hx] at h
    simp only [exceptBind_ok] at h
    obtain ⟨hs, hi⟩ := Except.ok.inj h |> Prod.mk.inj
    have h0 := hsum s0 i0 hx
    subst hs; subst hi
    omega

/-- On success the dispatcher's score is the two universal contributions
plus the sum of the collected result scores. -/
theorem nodeCostCalc_sum (node : SNode) (depth : Nat) (anc : List SNode)
    (s : Nat) (i : List OutputElem)
    (h : nodeCostCalc node depth anc = .ok (s, i)) :
    s = inherentCost node + nestingCost node depth + sumScores i := by
  rw [nodeCostCalc.eq_def] at h
  cases hk : node.kind <;> rw [hk] at h <;> simp [isForLikeStatement, hk] at h <;>
  first
  | exact dispatch_sum (fun s0 i0 hx => arrowFunctionCost_sum _ _ _ _ s0 i0 hx) h
  | exact dispatch_sum (fun s0 i0 hx => includeAll_sum _ _ _ s0 i0 hx) h
  | exact dispatch_sum (fun s0 i0 hx => doStatementCost_sum _ _ _ s0 i0 hx) h
  | exact dispatch_sum (fun s0 i0 hx => forLikeStatementCost_sum _ _ _ s0 i0 hx) h
  | exact dispatch_sum (fun s0 i0 hx => functionDeclarationCost_sum _ _ _ _ s0 i0 hx) h
  | exact dispatch_sum (fun s0 i0 hx => functionExpressionCost_sum _ _ _ _ s0 i0 hx) h
  | exact dispatch_sum (fun s0 i0 hx => ifStatementCost_sum _ _ _ s0 i0 hx) h
  | exact dispatch_sum (fun s0 i0 hx => methodDeclarationCost_sum _ _ _ _ s0 i0 hx) h
  | exact dispatch_sum (fun s0 i0 hx => switchStatementCost_sum _ _ _ s0 i0 hx) h
  | exact dispatch_sum (fun s0 i0 hx => whileStatementCost_sum _ _ _ s0 i0 hx) h
  | (refine dispatch_sum (fun s0 i0 hx => ?_) h
     rw [conditionalExpressionCost_empty] at hx
     obtain ⟨hs, hi⟩ := Except.ok.inj hx |> Prod.mk.inj
     subst hs; subst hi
     simp)

/-- C1: for every syntax node and every depth, a successfully produced
CostResult's score equals the sum of the scores of its collected child
results plus the local contribution of the two universal rules (there is no
further construct-specific addend in the code); in particular the score
never falls below the sum of its children's scores. -/
theorem calcElemCost_score_invariant (node : SNode) (depth : Nat)
    (anc : List SNode) (e : OutputElem)
    (h : calcElemCost node depth anc = .ok e) :
    e.score = sumScores e.inner + (inherentCost node + nestingCost node depth) ∧
      sumScores e.inner ≤ e.score := by
  simp only [calcElemCost] at h
  cases h1 : includeAll node.children 0 (node :: anc) with
  | error er => rw [h1] at h; simp at h
  | ok p1 =>
    rw [h1] at h
    simp only [exceptBind_ok] at h
    cases h2 : nodeCostCalc node depth anc with
    | error er => rw [h2] at h; simp at h
    | ok p2 =>
      rw [h2] at h
      simp only [exceptBind_ok] at h
      obtain ⟨s1, i1⟩ := p1
      obtain ⟨s2, i2⟩ := p2
      have hs1 := includeAll_sum _ _ _ _ _ h1
      have hs2 := nodeCostCalc_sum _ _ _ _ _ h2
      have he := Except.ok.inj h
      subst he
      refine ⟨?_, ?_⟩ <;> simp [sumScores_append] <;> omega

/-- Witness for C1 at a concrete input: a childless conditional expression
at depth 0 scores 1 with no child results. -/
theorem calcElemCost_score_invariant_witness :
    (OutputElem.mk 1 []).score =
        sumScores (OutputElem.mk 1 []).inner
          + (inherentCost condExprLeaf + nestingCost condExprLeaf 0) ∧
      sumScores (OutputElem.mk 1 []).inner ≤ (OutputElem.mk 1 []).score :=
  calcElemCost_score_invariant condExprLeaf 0 [] (OutputElem.mk 1 []) (by
    simp [calcElemCost, includeAll, nodeCostCalc, conditionalExpressionCost_empty,
      inherentCost, nestingCost, condExprLeaf, isForLikeStatement,
      isBreakOrContinueToLabel])

/-- The label test unfolded: a node is a labeled break/continue iff it is a
break or continue statement with an identifier child. -/
theorem isBreakOrContinueToLabel_iff (n : SNode) :
    isBreakOrContinueToLabel n = true ↔
      (n.kind = .breakStatement ∨ n.kind = .continueStatement)
        ∧ ∃ c ∈ n.children, c.kind = .identifier := by
  unfold isBreakOrContinueToLabel
  split
  · rename_i hc
    simp [List.any_eq_true, hc]
  · rename_i hc
    simp [hc]

/-- The intrinsic-cost rule restated with the label test unfolded. -/
theorem inherentCost_eq (n : SNode) :
    inherentCost n
      = (if n.kind = .catchClause ∨ n.kind = .conditionalExpression
            ∨ n.kind = .forInStatement ∨ n.kind = .forOfStatement
            ∨ n.kind = .forStatement ∨ n.kind = .ifStatement
            ∨ n.kind = .switchStatement ∨ n.kind = .whileStatement
            ∨ ((n.kind = .breakStatement ∨ n.kind = .continueStatement)
                ∧ ∃ c ∈ n.children, c.kind = .identifier)
          then 1 else 0) := by
  unfold inherentCost
  by_cases hb : isBreakOrContinueToLabel n = true
  · have hb2 := (isBreakOrContinueToLabel_iff n).mp hb
    simp [hb, hb2]
  · have hb2 : ¬((n.kind = .breakStatement ∨ n.kind = .continueStatement)
        ∧ ∃ c ∈ n.children, c.kind = .identifier) :=
      fun hc => hb ((isBreakOrContinueToLabel_iff n).mpr hc)
    simp [hb, hb2]

/-- C2: on every successful dispatch, the dispatcher's local contribution —
its returned score minus its collected children's scores — is an intrinsic
+1 exactly for catch clauses, conditional expressions, for-in, for-of, for,
if, switch, while, and break/continue statements with an identifier (label)
child, plus an additional +depth, only when depth > 0, exactly for
conditional expressions, for-in, for-of, for, if, switch and while; catch
clauses and labeled break/continue never receive the nesting addend, and
unlabeled break/continue contribute 0. -/
theorem nodeCost_local_contribution (node : SNode) (depth : Nat)
    (anc : List SNode) (s : Nat) (i : List OutputElem)
    (h : nodeCostCalc node depth anc = .ok (s, i)) :
    s = sumScores i
        + (if node.kind = .catchClause ∨ node.kind = .conditionalExpression
              ∨ node.kind = .forInStatement ∨ node.kind = .forOfStatement
              ∨ node.kind = .forStatement ∨ node.kind = .ifStatement
              ∨ node.kind = .switchStatement ∨ node.kind = .whileStatement
              ∨ ((node.kind = .breakStatement ∨ node.kind = .continueStatement)
                  ∧ ∃ c ∈ node.children, c.kind = .identifier)
            then 1 else 0)
        + (if 0 < depth ∧ (node.kind = .conditionalExpression
              ∨ node.kind = .forInStatement ∨ node.kind = .forOfStatement
              ∨ node.kind = .forStatement ∨ node.kind = .ifStatement
              ∨ node.kind = .switchStatement ∨ node.kind = .whileStatement)
            then depth else 0) := by
  have hs := nodeCostCalc_sum node depth anc s i h
  rw [hs, ← inherentCost_eq]
  unfold nestingCost
  omega

/-- Witness for C2 at a concrete input: a labeled break statement
dispatched at depth 3 contributes exactly its intrinsic +1 and no nesting
addend. -/
theorem nodeCost_local_contribution_witness :
    (1 : Nat) = sumScores [OutputElem.mk 0 []]
        + (if labeledBreakNode.kind = .catchClause
              ∨ labeledBreakNode.kind = .conditionalExpression
              ∨ labeledBreakNode.kind = .forInStatement
              ∨ labeledBreakNode.kind = .forOfStatement
              ∨ labeledBreakNode.kind = .forStatement
              ∨ labeledBreakNode.kind = .ifStatement
              ∨ labeledBreakNode.kind = .switchStatement
              ∨ labeledBreakNode.kind = .whileStatement
              ∨ ((labeledBreakNode.kind = .breakStatement
                    ∨ labeledBreakNode.kind = .continueStatement)
                  ∧ ∃ c ∈ labeledBreakNode.children, c.kind = .identifier)
            then 1 else 0)
        + (if 0 < 3 ∧ (labeledBreakNode.kind = .conditionalExpression
              ∨ labeledBreakNode.kind = .forInStatement
              ∨ labeledBreakNode.kind = .forOfStatement
              ∨ labeledBreakNode.kind = .forStatement
              ∨ labeledBreakNode.kind = .ifStatement
              ∨ labeledBreakNode.kind = .switchStatement
              ∨ labeledBreakNode.kind = .whileStatement)
            then 3 else 0) :=
  nodeCost_local_contribution labeledBreakNode 3 [] 1 [OutputElem.mk 0 []] (by
    simp [nodeCostCalc, includeAll, calcElemCost, labeledBreakNode, identLeaf,
      inherentCost, nestingCost, isForLikeStatement, isBreakOrContinueToLabel])

/-- C3 (code defect evidence): scoring a full ternary `c ? t : e` — three
depth probes separated by the `?` and `:` tokens — at depth 1 yields only
the five generic child results of the depth-0 pre-pass plus the node's own
intrinsic+nesting contribution: the conditional-expression handler itself
scores no child at all, because its run accumulator is never extended
(`push()` is called with no argument in the source), so no child is scored
at the current depth or at depth + 1 as the partition contract demands. -/
theorem conditionalExpression_scores_no_children :
    calcElemCost ternaryNode 1 [] =
      .ok (.mk 5 [.mk 1 [], .mk 0 [], .mk 1 [], .mk 0 [], .mk 1 []]) := by
  simp [calcElemCost, includeAll, nodeCostCalc, conditionalExpressionCost_empty,
    ternaryNode, condExprLeaf, tok, inherentCost, nestingCost,
    isForLikeStatement, isBreakOrContinueToLabel]

/-- C4 (code defect evidence): on a well-shaped while statement —
`while` keyword, `(`, condition, `)`, body — the while handler always
aborts: the second child test of its loop body is an `if` and not an
`else if`, so after the `while`-keyword branch consumes the parenthesis and
the condition, the same child is tested against the close parenthesis and
the `else` branch raises `UnexpectedNodeError` (or a deeper error from the
condition is propagated); the handler never returns normally. -/
theorem whileStatement_wellShaped_fails (cond body : SNode) (depth : Nat)
    (anc : List SNode) :
    ∃ err, whileStatementCost
        [tok .whileKeyword, tok .openParenToken, cond, tok .closeParenToken,
          body] depth anc = .error err := by
  rw [whileStatementCost.eq_def]
  simp only [tok, tsIsToken, SNode.kind_mk]
  cases hc : calcElemCost cond depth anc with
  | error e => exact ⟨e, by simp [hc]⟩
  | ok e => exact ⟨.unexpectedNode, by simp [hc]⟩

/-- C5 (code defect evidence): scoring a well-shaped `if` without an `else`
part aborts with the iterator's end-of-children error — the handler's loop
only terminates through the `else`-keyword branch — while the same `if`
with an `else` part succeeds with score 1 (its intrinsic cost over
cost-free leaves). -/
theorem ifStatement_requires_else :
    calcElemCost ifNoElseNode 0 [] = .error .iteratorEnded ∧
      (calcElemCost ifElseNode 0 []).map OutputElem.score = .ok 1 := by
  constructor
  · simp [calcElemCost, includeAll, nodeCostCalc, ifStatementCost, ifNoElseNode,
      tok, leafOther, tsIsToken, inherentCost, nestingCost, isForLikeStatement,
      isBreakOrContinueToLabel]
  · simp [calcElemCost, includeAll, nodeCostCalc, ifStatementCost, ifElseNode,
      tok, leafOther, tsIsToken, inherentCost, nestingCost, isForLikeStatement,
      isBreakOrContinueToLabel]

/-- C6 (code defect evidence): a function declaration whose parent is the
source file — so the top-level classifier answers true — still has its
block body scored at depth + 1: the handler passes `depth + 1`
unconditionally, never consulting the computed top-level flag.  The block
holds a depth probe, and the resulting file-level score 5 is only reachable
when the block is scored at depth 1 (scoring it at the current depth 0, as
the claim demands for a top-level declaration, would give 4). -/
theorem functionDeclaration_ignores_topLevel :
    isTopLevel [sfNode] = true ∧
      (calcElemCost fdNode 0 [sfNode]).map OutputElem.score = .ok 5 := by
  constructor
  · simp [isTopLevel, sfNode]
  · simp [calcElemCost, includeAll, nodeCostCalc, functionDeclarationCost,
      conditionalExpressionCost_empty, fdNode, blockNode, condExprLeaf, sfNode,
      isSyntaxList, inherentCost, nestingCost, isForLikeStatement,
      isBreakOrContinueToLabel, isTopLevel, isTopLevelWalk]

/-- C7 (code defect evidence): on a method declaration whose block body is
its last child, the handler reaches the block and then calls the iterator
again — `include(nextChild(), …)` instead of including the block itself —
so it aborts with the iterator's end-of-children error and the block is
never scored. -/
theorem methodDeclaration_scores_child_after_block :
    calcElemCost mdNode 0 [sfNode] = .error .iteratorEnded := by
  simp [calcElemCost, includeAll, nodeCostCalc, methodDeclarationCost, mdNode,
    blockNode, identLeaf, sfNode, inherentCost, nestingCost,
    isForLikeStatement, isBreakOrContinueToLabel, isTopLevel, isTopLevelWalk]

/-- C8 (code defect evidence): scoring a function expression with children
name, token, block-with-depth-probe at depth 1 gives total score 5 with
five collected results: the handler scores the last child (the block) at
the current depth 1 and the first child at depth 2, skipping the middle
child entirely.  Scoring as the claim demands — all children but the last
at depth 1 and the block at depth 2 — would give total score 6 with six
collected results. -/
theorem functionExpression_swaps_depths :
    (calcElemCost feNode 1 []).map OutputElem.score = .ok 5 ∧
      (calcElemCost feNode 1 []).map (fun e => e.inner.length) = .ok 5 := by
  constructor <;>
    simp [calcElemCost, includeAll, nodeCostCalc, functionExpressionCost,
      conditionalExpressionCost_empty, feNode, blockNode, condExprLeaf,
      identLeaf, tok, inherentCost, nestingCost, isForLikeStatement,
      isBreakOrContinueToLabel, isTopLevel, isTopLevelWalk]

/-- C9 counterexample: a function nested directly inside a top-level
function's block body — ancestor chain block, function declaration, source
file — is classified top level by the code, refuting the claim that every
function nested inside another function's body is classified false. -/
theorem isTopLevel_nested_function_true :
    isTopLevel [blockNode [], fdNode, sfNode] = true := by
  simp [isTopLevel, isTopLevelWalk, blockNode, fdNode, sfNode]

/-- C9 amended: the classifier returns true for a function nested in a bare
block under a construct at the file root (for example inside an if's body);
it returns false when the immediate parent is neither a block nor the
source file; and for a parent block it walks to the nearest non-block
ancestor and returns that ancestor's own classification — so a function
nested inside another function's body is top level exactly when the
enclosing function is, rather than always non-top-level. -/
theorem isTopLevel_amended :
    isTopLevel [blockNode [], SNode.mk .ifStatement [], sfNode] = true ∧
      (∀ (p : SNode) (rest : List SNode),
        p.kind ≠ .sourceFile → p.kind ≠ .block →
          isTopLevel (p :: rest) = false) ∧
      (∀ (b f : SNode) (rest : List SNode),
        b.kind = .block → f.kind ≠ .block →
          isTopLevel (b :: f :: rest) = isTopLevel rest) := by
  refine ⟨?_, ?_, ?_⟩
  · simp [isTopLevel, isTopLevelWalk, blockNode, sfNode]
  · intro p rest h1 h2
    simp [isTopLevel, h1, h2]
  · intro b f rest hb hf
    have hbs : b.kind ≠ .sourceFile := by rw [hb]; simp
    simp [isTopLevel, isTopLevelWalk, hb, hbs, hf]

/-- Witness for the amended C9 at concrete inputs: an identifier parent is
not top level, and a block under a function declaration classifies as the
chain above the function declaration does. -/
theorem isTopLevel_amended_witness :
    isTopLevel [identLeaf] = false ∧
      isTopLevel [blockNode [], fdNode, sfNode] = isTopLevel [sfNode] :=
  ⟨isTopLevel_amended.2.1 identLeaf []
      (by simp [identLeaf]) (by simp [identLeaf]),
    isTopLevel_amended.2.2 (blockNode []) fdNode [sfNode]
      (by simp [blockNode]) (by simp [fdNode])⟩

/-- For a node whose kind has no construct-specific handler, the dispatcher
falls through to scoring every child at the current depth. -/
theorem nodeCostCalc_default (node : SNode) (depth : Nat) (anc : List SNode)
    (hnd : node.kind ∉ ([.arrowFunction, .catchClause, .conditionalExpression,
      .doStatement, .forInStatement, .forOfStatement, .forStatement,
      .functionDeclaration, .functionExpression, .ifStatement,
      .methodDeclaration, .switchStatement, .whileStatement] :
        List SyntaxKind)) :
    nodeCostCalc node depth anc
      = (includeAll node.children depth (node :: anc) >>= fun p =>
          Except.ok (inherentCost node + nestingCost node depth + p.1, p.2)) := by
  rw [nodeCostCalc.eq_def]
  cases hk : node.kind <;>
    first
    | (exfalso; simp [hk] at hnd; done)
    | simp [isForLikeStatement, hk]

/-- C10 counterexample: the claim that every child of every node is scored
twice fails on an if statement with an else part: the node has 7 children,
but the produced record holds only 10 child results — the 7 of the generic
depth-0 pre-pass plus the 3 the if handler re-includes (condition, then,
else); the four token children are scored once, not twice, so the claimed
2 × 7 = 14 results do not exist. -/
theorem calcElemCost_not_all_children_twice :
    (calcElemCost ifElseNode 0 []).map (fun e => e.inner.length) = .ok 10 ∧
      ifElseNode.children.length = 7 := by
  constructor
  · simp [calcElemCost, includeAll, nodeCostCalc, ifStatementCost, ifElseNode,
      tok, leafOther, tsIsToken, inherentCost, nestingCost, isForLikeStatement,
      isBreakOrContinueToLabel]
  · simp [ifElseNode]

/-- C10 amended: `calcElemCost` scores each child once in a generic
pre-pass that recurses with depth fixed to 0 irrespective of the node's
depth argument, and the dispatcher then re-includes the children its
handler selects at handler-chosen depths; for a node with no
construct-specific handler that is every child again, at the node's depth,
so exactly there each child is scored twice, both results are appended to
the returned inner sequence — the pre-pass results first — and both scores
are added into the returned score together with the node's local
contribution. -/
theorem calcElemCost_default_two_passes (node : SNode) (depth : Nat)
    (anc : List SNode) (e : OutputElem)
    (hnd : node.kind ∉ ([.arrowFunction, .catchClause, .conditionalExpression,
      .doStatement, .forInStatement, .forOfStatement, .forStatement,
      .functionDeclaration, .functionExpression, .ifStatement,
      .methodDeclaration, .switchStatement, .whileStatement] :
        List SyntaxKind))
    (h : calcElemCost node depth anc = .ok e) :
    ∃ i1 i2,
      e.inner = i1 ++ i2 ∧
        List.Forall₂ (fun c r => calcElemCost c 0 (node :: anc) = .ok r)
          node.children i1 ∧
        List.Forall₂ (fun c r => calcElemCost c depth (node :: anc) = .ok r)
          node.children i2 ∧
        e.score = sumScores i1 + sumScores i2
          + (inherentCost node + nestingCost node depth) := by
  simp only [calcElemCost] at h
  cases h1 : includeAll node.children 0 (node :: anc) with
  | error er => rw [h1] at h; simp at h
  | ok p1 =>
    rw [h1] at h
    simp only [exceptBind_ok] at h
    rw [nodeCostCalc_default node depth anc hnd] at h
    cases h2 : includeAll node.children depth (node :: anc) with
    | error er => rw [h2] at h; simp at h
    | ok p2 =>
      rw [h2] at h
      simp only [exceptBind_ok] at h
      obtain ⟨s1, i1⟩ := p1
      obtain ⟨s2, i2⟩ := p2
      obtain ⟨hsum1, hall1⟩ := includeAll_ok _ _ _ _ _ h1
      obtain ⟨hsum2, hall2⟩ := includeAll_ok _ _ _ _ _ h2
      have he := Except.ok.inj h
      subst he
      refine ⟨i1, i2, by simp, hall1, hall2, by simp; omega⟩

/-- Witness for the amended C10 at a concrete input: an ordinary node with
one depth-probe child, scored at depth 2, collects the child's depth-0
result and its depth-2 result and adds both scores. -/
theorem calcElemCost_default_two_passes_witness :
    ∃ i1 i2,
      (OutputElem.mk 4 [OutputElem.mk 1 [], OutputElem.mk 3 []]).inner
          = i1 ++ i2 ∧
        List.Forall₂ (fun c r => calcElemCost c 0 (c10Node :: []) = .ok r)
          c10Node.children i1 ∧
        List.Forall₂ (fun c r => calcElemCost c 2 (c10Node :: []) = .ok r)
          c10Node.children i2 ∧
        (OutputElem.mk 4 [OutputElem.mk 1 [], OutputElem.mk 3 []]).score
          = sumScores i1 + sumScores i2
            + (inherentCost c10Node + nestingCost c10Node 2) :=
  calcElemCost_default_two_passes c10Node 2 []
    (OutputElem.mk 4 [OutputElem.mk 1 [], OutputElem.mk 3 []])
    (by decide)
    (by simp [calcElemCost, includeAll, nodeCostCalc,
      conditionalExpressionCost_empty, c10Node, condExprLeaf, inherentCost,
      nestingCost, isForLikeStatement, isBreakOrContinueToLabel])
